import Mathlib

/-!
# appmanifest: chunked MD5 hashing and manifest assembly

A shallow embedding of `appmanifest/appmanifest.go`.  The two functions of the
program, `calculateMD5s` and `createAppManifest`, are translated statement by
statement.  The library code they call is modelled from its documented
behaviour: `crypto/md5` (RFC 1321), `io.CopyN` / `io.Copy` /
`io.LimitedReader`, `fmt.Sprintf("%x", ..)`, `os.Open`, `File.Stat` and the
plist encoder (taken as a parameter).

Loops that need not terminate (`for { .. }` in `calculateMD5s`, the copy loop
of `io.Copy`) take a fuel argument and return `none` when it runs out.
-/

namespace AppManifest

set_option maxRecDepth 100000

/-! ## crypto/md5 -/

namespace md5

/-- Reduction of a natural number to a 32-bit word. -/
def mask32 (x : Nat) : Nat := x % 4294967296

/-- Left rotation of a 32-bit word by `c` bits. -/
def rotl32 (x c : Nat) : Nat :=
  mask32 (x <<< c) ||| (x >>> (32 - c))

/-- The sine table of RFC 1321: `K[i] = floor(2^32 * |sin(i + 1)|)`. -/
def K : List Nat :=
  [0xd76aa478, 0xe8c7b756, 0x242070db, 0xc1bdceee,
   0xf57c0faf, 0x4787c62a, 0xa8304613, 0xfd469501,
   0x698098d8, 0x8b44f7af, 0xffff5bb1, 0x895cd7be,
   0x6b901122, 0xfd987193, 0xa679438e, 0x49b40821,
   0xf61e2562, 0xc040b340, 0x265e5a51, 0xe9b6c7aa,
   0xd62f105d, 0x02441453, 0xd8a1e681, 0xe7d3fbc8,
   0x21e1cde6, 0xc33707d6, 0xf4d50d87, 0x455a14ed,
   0xa9e3e905, 0xfcefa3f8, 0x676f02d9, 0x8d2a4c8a,
   0xfffa3942, 0x8771f681, 0x6d9d6122, 0xfde5380c,
   0xa4beea44, 0x4bdecfa9, 0xf6bb4b60, 0xbebfbc70,
   0x289b7ec6, 0xeaa127fa, 0xd4ef3085, 0x04881d05,
   0xd9d4d039, 0xe6db99e5, 0x1fa27cf8, 0xc4ac5665,
   0xf4292244, 0x432aff97, 0xab9423a7, 0xfc93a039,
   0x655b59c3, 0x8f0ccc92, 0xffeff47d, 0x85845dd1,
   0x6fa87e4f, 0xfe2ce6e0, 0xa3014314, 0x4e0811a1,
   0xf7537e82, 0xbd3af235, 0x2ad7d2bb, 0xeb86d391]

/-- The per-round shift amounts of RFC 1321. -/
def R : List Nat :=
  [7, 12, 17, 22, 7, 12, 17, 22, 7, 12, 17, 22, 7, 12, 17, 22,
   5, 9, 14, 20, 5, 9, 14, 20, 5, 9, 14, 20, 5, 9, 14, 20,
   4, 11, 16, 23, 4, 11, 16, 23, 4, 11, 16, 23, 4, 11, 16, 23,
   6, 10, 15, 21, 6, 10, 15, 21, 6, 10, 15, 21, 6, 10, 15, 21]

/-- The four 32-bit chaining words. -/
structure Words where
  a : Nat
  b : Nat
  c : Nat
  d : Nat

/-- Little-endian 32-bit word made of the first four bytes of a list. -/
def leWord (bs : List Nat) : Nat :=
  bs.getD 0 0 + 256 * bs.getD 1 0 + 65536 * bs.getD 2 0 + 16777216 * bs.getD 3 0

/-- The four bytes of a 32-bit word, least significant first. -/
def wordBytes (w : Nat) : List UInt8 :=
  [UInt8.ofNat (w % 256), UInt8.ofNat ((w / 256) % 256),
   UInt8.ofNat ((w / 65536) % 256), UInt8.ofNat ((w / 16777216) % 256)]

/-- One of the 64 operations applied to a block with message words `m`. -/
def step (m : List Nat) (v : Words) (i : Nat) : Words :=
  let fg : Nat × Nat :=
    if i < 16 then ((v.b &&& v.c) ||| ((4294967295 - v.b) &&& v.d), i)
    else if i < 32 then ((v.d &&& v.b) ||| ((4294967295 - v.d) &&& v.c), (5 * i + 1) % 16)
    else if i < 48 then (v.b ^^^ v.c ^^^ v.d, (3 * i + 5) % 16)
    else (v.c ^^^ (v.b ||| (4294967295 - v.d)), (7 * i) % 16)
  let f := mask32 (fg.1 + v.a + K.getD i 0 + m.getD fg.2 0)
  ⟨v.d, mask32 (v.b + rotl32 f (R.getD i 0)), v.b, v.c⟩

/-- Compression of one 64-byte block into the chaining words. -/
def block (v : Words) (blk : List Nat) : Words :=
  let m := (List.range 16).map (fun j => leWord (blk.drop (4 * j)))
  let w := (List.range 64).foldl (step m) v
  ⟨mask32 (v.a + w.a), mask32 (v.b + w.b), mask32 (v.c + w.c), mask32 (v.d + w.d)⟩

/-- Padding: a `0x80` byte, zeros up to 56 mod 64, then the bit length on 8 bytes. -/
def pad (msg : List Nat) : List Nat :=
  msg ++ [128] ++ List.replicate ((55 + 64 - msg.length % 64) % 64) 0 ++
    (List.range 8).map (fun j => (8 * msg.length / 256 ^ j) % 256)

/-- Compression of `k` consecutive blocks. -/
def blocks : Nat → Words → List Nat → Words
  | 0, v, _ => v
  | k + 1, v, bs => blocks k (block v (bs.take 64)) (bs.drop 64)

/-- The 16-byte MD5 digest of a byte string: what `h.Sum(nil)` returns when
`msg` is everything written to `h := md5.New()` since the last `h.Reset()`. -/
def Sum (msg : List UInt8) : List UInt8 :=
  let p := pad (msg.map UInt8.toNat)
  let v := blocks (p.length / 64) ⟨0x67452301, 0xefcdab89, 0x98badcfe, 0x10325476⟩ p
  wordBytes v.a ++ wordBytes v.b ++ wordBytes v.c ++ wordBytes v.d

end md5

/-! ## fmt -/

/-- One lowercase hexadecimal digit. -/
def hexDigit (n : Nat) : Char := "0123456789abcdef".toList.getD n '0'

/-- The string `fmt.Sprintf("%x", bs)` for a byte slice: two lowercase
hexadecimal digits per byte. -/
def Sprintf_x (bs : List UInt8) : String :=
  String.mk (bs.flatMap (fun b => [hexDigit (b.toNat / 16), hexDigit (b.toNat % 16)]))

/-- The element `calculateMD5s` appends for a chunk: `fmt.Sprintf("%x", h.Sum(nil))`. -/
def md5hex (chunk : List UInt8) : String := Sprintf_x (md5.Sum chunk)

/-! ## errors and readers -/

/-- Go error values: the sentinel `io.EOF` and any other error. -/
inductive GoError where
  | EOF
  | other (msg : String)
  deriving DecidableEq, Repr

/-- Result of one `Read(p)`: the bytes `p[0:n]`, the error, the reader afterwards. -/
structure ReadResult (σ : Type) where
  data : List UInt8
  err : Option GoError
  next : σ
  deriving DecidableEq

/-- An `io.Reader` with internal state `σ`: `Read st k` is a call of `Read(p)`
with `len(p) = k` in state `st`. -/
structure Reader (σ : Type) where
  Read : σ → Nat → ReadResult σ

/-- The `io.Reader` contract `0 <= n <= len(p)`. -/
def Reader.Lawful {σ : Type} (r : Reader σ) : Prop :=
  ∀ st k, (r.Read st k).data.length ≤ k

/-- One scripted answer of a reader: bytes it has ready and the error it
reports together with the last of them. -/
structure Segment where
  data : List UInt8
  err : Option GoError
  deriving DecidableEq, Repr

/-- A reader given by the finite list of answers it still has to give. -/
abbrev Script := List Segment

/-- Reading from a script: a segment that fits in `p` is returned whole with
its error; a longer one gives `len(p)` bytes and a nil error and keeps the
rest; an exhausted script reports `io.EOF`. -/
def scriptRead : Script → Nat → ReadResult Script
  | [], _ => ⟨[], some GoError.EOF, []⟩
  | seg :: rest, k =>
    if seg.data.length ≤ k then ⟨seg.data, seg.err, rest⟩
    else ⟨seg.data.take k, none, ⟨seg.data.drop k, seg.err⟩ :: rest⟩

/-- The scripted reader. -/
def scriptReader : Reader Script := ⟨scriptRead⟩

/-- All bytes a script delivers. -/
def content (sc : Script) : List UInt8 := sc.flatMap Segment.data

/-! ## io.LimitedReader, io.Copy, io.CopyN -/

/-- The method `(*LimitedReader).Read` over reader `r` in state `st` with `N`
bytes left, called with `len(p) = k`. -/
def limitedRead {σ : Type} (r : Reader σ) (st : σ) (N : Int) (k : Nat) : ReadResult (σ × Int) :=
  if N ≤ 0 then ⟨[], some GoError.EOF, (st, N)⟩
  else
    let res := r.Read st (if (k : Int) > N then N.toNat else k)
    ⟨res.data, res.err, (res.next, N - res.data.length)⟩

/-- What a copy returns: bytes written, error, reader state, hash state. -/
structure Copied (σ : Type) where
  written : Int
  err : Option GoError
  st : σ
  h : List UInt8
  deriving DecidableEq

/-- The loop of `io.copyBuffer` with `src` a `LimitedReader` and `dst` the MD5
hash `h` (the bytes written since the last reset).  `hash.Hash.Write` never
fails and never writes short, so the write-error exits are not reachable. -/
def copyLoop {σ : Type} (r : Reader σ) (size : Nat) :
    Nat → σ → Int → List UInt8 → Int → Option (Copied σ)
  | 0, _, _, _, _ => none
  | fuel + 1, st, N, h, written =>
    let res := limitedRead r st N size
    let h1 := if res.data.length > 0 then h ++ res.data else h
    let written1 := if res.data.length > 0 then written + res.data.length else written
    match res.err with
    | some er => some ⟨written1, if er = GoError.EOF then none else some er, res.next.1, h1⟩
    | none => copyLoop r size fuel res.next.1 res.next.2 h1 written1

/-- The buffer `io.copyBuffer` allocates for a `LimitedReader` with `n` bytes left. -/
def bufSize (n : Int) : Nat :=
  if 32 * 1024 > n then (if n < 1 then 1 else n.toNat) else 32 * 1024

/-- The call `io.CopyN(h, f, n)`. -/
def CopyN {σ : Type} (fuel : Nat) (r : Reader σ) (st : σ) (h : List UInt8) (n : Int) :
    Option (Copied σ) :=
  match copyLoop r (bufSize n) fuel st n h 0 with
  | none => none
  | some c =>
    if c.written = n then some ⟨n, none, c.st, c.h⟩
    else if c.written < n ∧ c.err = none then some ⟨c.written, some GoError.EOF, c.st, c.h⟩
    else some c

/-! ## calculateMD5s -/

/-- What `calculateMD5s` returns, with the reader state it leaves behind. -/
structure Hashed (σ : Type) where
  md5s : List String
  err : Option GoError
  st : σ
  deriving DecidableEq

/-- The `for` loop of `calculateMD5s`, with hash state `h` and the list `md5s`
built so far. -/
def calculateMD5sLoop {σ : Type} (r : Reader σ) (s : Int) :
    Nat → σ → List UInt8 → List String → Option (Hashed σ)
  | 0, _, _, _ => none
  | fuel + 1, st, h, md5s =>
    match CopyN fuel r st h s with
    | none => none
    | some c =>
      let md5s1 := if c.written > 0 then md5s ++ [Sprintf_x (md5.Sum c.h)] else md5s
      let h1 := if c.written > 0 then [] else c.h
      match c.err with
      | some er => some ⟨md5s1, if er = GoError.EOF then none else some er, c.st⟩
      | none => calculateMD5sLoop r s fuel c.st h1 md5s1

/-- The function `calculateMD5s(f, s)`: a new hash, the empty list, the loop. -/
def calculateMD5s {σ : Type} (fuel : Nat) (r : Reader σ) (st : σ) (s : Int) :
    Option (Hashed σ) :=
  calculateMD5sLoop r s fuel st [] []

/-! ## createAppManifest -/

/-- The constant `DefaultMD5Size = 10 << 20`. -/
def DefaultMD5Size : Int := 10 <<< 20

/-- The struct `bundleInfo`. -/
structure bundleInfo where
  BundleIdentifier : String
  BundleVersion : String
  deriving DecidableEq, Repr

/-- The struct `metadata`. -/
structure metadata where
  bundle : bundleInfo
  Items : List bundleInfo
  Kind : String
  Subtitle : String
  Title : String
  deriving DecidableEq, Repr

/-- The struct `asset`. -/
structure asset where
  Kind : String
  MD5Size : Int
  MD5s : List String
  URL : String
  deriving DecidableEq, Repr

/-- The struct `manifestItem`; a nil `Metadata` pointer is `none`. -/
structure manifestItem where
  Assets : List asset
  Metadata : Option metadata
  deriving DecidableEq, Repr

/-- The struct `manifest`. -/
structure manifest where
  ManifestItems : List manifestItem
  deriving DecidableEq, Repr

/-- An opened file: its reader, and what `file.Stat()` gives for `info.Size()`. -/
structure File (σ : Type) where
  r : Reader σ
  st : σ
  Stat : Except GoError Int

/-- The file system as `os.Open` sees it. -/
structure FS (σ : Type) where
  Open : String → Except GoError (File σ)

/-- The plist encoder writing to the sink: the bytes `enc.Encode(&m)` writes and
the error it returns. -/
abbrev Encoder := manifest → List UInt8 × Option GoError

deriving instance DecidableEq for Except

/-- Lines 90 to 127 of `createAppManifest`: open, stat, clamp, hash, and build
the manifest value that is handed to the encoder. -/
def assembleManifest {σ : Type} (fuel : Nat) (fs : FS σ) (path url : String) (md5Size : Int) :
    Option (Except GoError manifest) :=
  match fs.Open path with
  | .error err => some (.error err)
  | .ok file =>
    match file.Stat with
    | .error err => some (.error err)
    | .ok fSize =>
      let md5Size := if md5Size > fSize then fSize else md5Size
      match calculateMD5s fuel file.r file.st md5Size with
      | none => none
      | some hashed =>
        match hashed.err with
        | some err => some (.error err)
        | none =>
          let ast : asset := ⟨"software-package", md5Size, hashed.md5s, url⟩
          some (.ok ⟨[⟨[ast], none⟩]⟩)

/-- The function `createAppManifest(path, url, writer, md5Size)`; `writer` is
what the sink has received so far, the result is the returned error and what
the sink has received afterwards. -/
def createAppManifest {σ : Type} (fuel : Nat) (fs : FS σ) (enc : Encoder) (path url : String)
    (writer : List UInt8) (md5Size : Int) : Option (Option GoError × List UInt8) :=
  match assembleManifest fuel fs path url md5Size with
  | none => none
  | some (.error err) => some (some err, writer)
  | some (.ok m) => some ((enc m).2, writer ++ (enc m).1)

/-! ## definitions used to state and prove the properties -/

/-- The error a copy or the hashing loop reports for a read error: `io.EOF` is
turned into nil. -/
def errOf (e : GoError) : Option GoError := if e = GoError.EOF then none else some e

/-- Segments that carry no error. -/
def dataOnly (sc : Script) : Prop := ∀ seg ∈ sc, seg.err = none

/-- Number of segments plus number of bytes of a script. -/
def weight (sc : Script) : Nat := sc.length + (content sc).length

/-- The script `tail` starts with the first answer that carries an error: `d`
with error `e`, followed by `post`; an exhausted script answers `io.EOF`. -/
def Fires (tail : Script) (d : List UInt8) (e : GoError) (post : Script) : Prop :=
  tail = ⟨d, some e⟩ :: post ∨ (tail = [] ∧ d = [] ∧ e = GoError.EOF ∧ post = [])

/-- What one copy does on a script `pre ++ tail` whose first error sits at the
head of `tail`: either it reaches the answer carrying the error, or the limit
of `n` bytes is used up first. -/
def CopySpec (size : Nat) (e : GoError) (post pre tail : Script) (d : List UInt8) (n : Nat)
    (h : List UInt8) (w : Int) (fuel : Nat) : Prop :=
  ((content pre).length < n ∧ (content pre).length + d.length ≤ n →
    copyLoop scriptReader size fuel (pre ++ tail) (n : Int) h w =
      some ⟨w + ((content pre).length + d.length : Nat), errOf e, post,
        h ++ (content pre ++ d)⟩) ∧
  (n ≤ (content pre).length ∨ n < (content pre).length + d.length →
    ∃ pre' tail' d' taken, dataOnly pre' ∧ Fires tail' d' e post ∧ taken.length = n ∧
      taken ++ (content pre' ++ d') = content pre ++ d ∧ (d' = [] ↔ d = []) ∧
      weight pre' + d'.length + n ≤ weight pre + d.length ∧
      copyLoop scriptReader size fuel (pre ++ tail) (n : Int) h w =
        some ⟨w + (n : Nat), none, pre' ++ tail', h ++ taken⟩)

/-- The byte ranges `b[i*s .. min((i+1)*s, len(b)))` for `i < ceil(len(b)/s)`. -/
def chunkList (s : Nat) (b : List UInt8) : List (List UInt8) :=
  (List.range ((b.length + s - 1) / s)).map (fun i => (b.drop (i * s)).take s)

/-- A script that delivers its bytes without error and then ends: no answer
carries an error, except that the last one may carry `io.EOF`. -/
def Clean : Script → Bool
  | [] => true
  | seg :: rest =>
    (seg.err == none && Clean rest) || (seg.err == some GoError.EOF && rest.isEmpty)

/-- Fuel that lets `calculateMD5s` run to its return on a script. -/
def scriptFuel (sc : Script) : Nat := 2 * weight sc + 2

/-- The 25 bytes `A` .. `Y`. -/
def sample25 : List UInt8 :=
  [65, 66, 67, 68, 69, 70, 71, 72, 73, 74, 75, 76, 77, 78, 79, 80, 81, 82, 83, 84, 85, 86, 87,
   88, 89]

/-- A reader that delivers `sample25` in short reads: 7 bytes, an empty read,
then the other 18 bytes together with `io.EOF`. -/
def stream25 : Script :=
  [⟨sample25.take 7, none⟩, ⟨[], none⟩, ⟨sample25.drop 7, some GoError.EOF⟩]

/-- A regular file whose reads follow the script `sc` and whose size is the
number of bytes the script delivers. -/
def regularFile (sc : Script) : File Script :=
  ⟨scriptReader, sc, .ok ((content sc).length : Int)⟩

/-- A file system with one file. -/
def singleFile (name : String) (file : File Script) : FS Script :=
  ⟨fun p => if p = name then .ok file else .error (GoError.other "open: no such file")⟩

/-- A three-byte file. -/
def file3 : File Script := regularFile [⟨[1, 2, 3], none⟩]

/-- A file whose reader fails after three bytes. -/
def brokenFile : File Script :=
  ⟨scriptReader, [⟨[1, 2, 3], some (GoError.other "read error")⟩], .ok 8⟩

/-- A file whose size cannot be read. -/
def noStatFile : File Script :=
  ⟨scriptReader, [], .error (GoError.other "stat failed")⟩

/-- An encoder that writes one byte per hash and reports no error. -/
def countingEncoder : Encoder :=
  fun m => (m.ManifestItems.flatMap (fun it =>
    it.Assets.flatMap (fun a => a.MD5s.map (fun _ => (35 : UInt8)))), none)

/-- A stream of 10,485,760 zero bytes. -/
def stream10MB : Script := [⟨List.replicate 10485760 0, none⟩]

/-- The manifest of the three-byte file with the empty URL and chunk size 3. -/
def manifest3 : manifest :=
  ⟨[⟨[⟨"software-package", 3, ["5289df737df57326fcdd22597afb1fac"], ""⟩], none⟩]⟩

/-- What `calculateMD5s` returns on the reader of `brokenFile` with chunk size 2. -/
def brokenHashed : Hashed Script :=
  ⟨["0cb988d042a7f28dd5fe2b55b3f5ac7a", "8666683506aacd900bbd5a74ac4edf68"],
    some (GoError.other "read error"), []⟩

/-- A reader that delivers two bytes together with a read error. -/
def errorAtChunkEnd : Script := [⟨[1, 2], some (GoError.other "boom")⟩]

/-- A reader that delivers two bytes together with a read error, repeats the
error on the next read, and has one more byte after that. -/
def stickyError : Script :=
  [⟨[1, 2], some (GoError.other "boom")⟩, ⟨[], some (GoError.other "boom")⟩, ⟨[9], none⟩]

/-- A reader that delivers two bytes, then one byte together with a read
error, and has one more byte after that. -/
def errorMidChunk : Script :=
  [⟨[1, 2], none⟩] ++ ⟨[3], some (GoError.other "read error")⟩ :: [⟨[9], none⟩]

/-- The 25 bytes of `sample25` delivered in three other reads: 12 bytes, one
byte, 12 bytes, and no error until the reader is exhausted. -/
def stream25b : Script :=
  [⟨sample25.take 12, none⟩, ⟨(sample25.drop 12).take 1, none⟩, ⟨sample25.drop 13, none⟩]

/-- The lowercase hexadecimal digits. -/
def lowerHexDigits : List Char := "0123456789abcdef".toList

/-- What `calculateMD5s` returns on `stream25` with chunk size 10. -/
def hashed25 : Hashed Script :=
  ⟨["e86410fa2d6e2634fd8ac5f4b3afe7f3", "d123d9c26465577a2d10958881c9b31a",
    "b1fc414167c923b329562f6619db1cf7"], none, []⟩

/-- The struct fields of the document types that carry a `plist` tag, named
by struct and field. -/
inductive Field where
  | manifest_ManifestItems
  | manifestItem_Assets
  | manifestItem_Metadata
  | asset_Kind
  | asset_MD5Size
  | asset_MD5s
  | asset_URL
  | metadata_Items
  | metadata_Kind
  | metadata_Subtitle
  | metadata_Title
  | bundleInfo_BundleIdentifier
  | bundleInfo_BundleVersion
  deriving DecidableEq, Repr

/-- The `plist:"..."` struct tag of each field, as written in the type
declarations of the source (lines 18 to 47). -/
def plistTag : Field → String
  | .manifest_ManifestItems => "items"
  | .manifestItem_Assets => "assets"
  | .manifestItem_Metadata => "metadata,omitempty"
  | .asset_Kind => "kind"
  | .asset_MD5Size => "md5-size"
  | .asset_MD5s => "md5s"
  | .asset_URL => "url"
  | .metadata_Items => "items,omitempty"
  | .metadata_Kind => "kind"
  | .metadata_Subtitle => "subtitle"
  | .metadata_Title => "title"
  | .bundleInfo_BundleIdentifier => "bundle-identifier"
  | .bundleInfo_BundleVersion => "bundle-version"

/-- The parts of a struct tag between commas, as `strings.Split(tag, ",")`. -/
def splitComma : List Char → List (List Char)
  | [] => [[]]
  | c :: cs =>
    match splitComma cs with
    | [] => [[c]]
    | w :: ws => if c = ',' then [] :: w :: ws else (c :: w) :: ws

/-- The key an encoder takes from a struct tag: the part before the first comma. -/
def tagKey (tag : String) : String := String.mk ((splitComma tag.data).headD [])

/-- Whether a struct tag carries the `omitempty` option after its key. -/
def tagOmitEmpty (tag : String) : Bool :=
  (splitComma tag.data).tail.contains "omitempty".data

/-- The document field mapping table of the specification (section 6): the
external key of each entity field, and whether the entry is marked as omitted
when absent or empty. -/
def specKey : Field → String × Bool
  | .manifest_ManifestItems => ("items", false)
  | .manifestItem_Assets => ("assets", false)
  | .manifestItem_Metadata => ("metadata", true)
  | .asset_Kind => ("kind", false)
  | .asset_MD5Size => ("md5-size", false)
  | .asset_MD5s => ("md5s", false)
  | .asset_URL => ("url", false)
  | .metadata_Kind => ("kind", false)
  | .metadata_Subtitle => ("subtitle", false)
  | .metadata_Title => ("title", false)
  | .metadata_Items => ("items", true)
  | .bundleInfo_BundleIdentifier => ("bundle-identifier", false)
  | .bundleInfo_BundleVersion => ("bundle-version", false)

/-! ## theorems -/

@[simp] theorem content_nil : content [] = [] := rfl

@[simp] theorem content_cons (seg : Segment) (sc : Script) :
    content (seg :: sc) = seg.data ++ content sc := by
  simp [content]

@[simp] theorem content_append (a b : Script) : content (a ++ b) = content a ++ content b := by
  simp [content]

@[simp] theorem weight_nil : weight [] = 0 := rfl

@[simp] theorem weight_cons (seg : Segment) (sc : Script) :
    weight (seg :: sc) = weight sc + seg.data.length + 1 := by
  simp [weight]; omega

theorem copyLoop_succ {σ : Type} (r : Reader σ) (size fuel : Nat) (st : σ) (N : Int)
    (h : List UInt8) (w : Int) :
    copyLoop r size (fuel + 1) st N h w =
      match (limitedRead r st N size).err with
      | some er => some ⟨w + (limitedRead r st N size).data.length, errOf er,
          (limitedRead r st N size).next.1, h ++ (limitedRead r st N size).data⟩
      | none => copyLoop r size fuel (limitedRead r st N size).next.1
          (limitedRead r st N size).next.2 (h ++ (limitedRead r st N size).data)
          (w + (limitedRead r st N size).data.length) := by
  rw [copyLoop]
  by_cases hl : (limitedRead r st N size).data.length > 0
  · simp only [hl, if_true, errOf]
  · have h0 : (limitedRead r st N size).data = [] := by
      cases hd : (limitedRead r st N size).data with
      | nil => rfl
      | cons a t => rw [hd] at hl; simp at hl
    simp only [h0, List.length_nil, gt_iff_lt, lt_self_iff_false, if_false, List.append_nil,
      Nat.cast_zero, add_zero, errOf]

theorem copyLoop_nonpos {σ : Type} (r : Reader σ) (size fuel : Nat) (st : σ) (N : Int)
    (h : List UInt8) (w : Int) (hN : N ≤ 0) :
    copyLoop r size (fuel + 1) st N h w = some ⟨w, none, st, h⟩ := by
  rw [copyLoop_succ]
  simp [limitedRead, hN, errOf]

theorem limitedRead_pos {σ : Type} (r : Reader σ) (st : σ) (n size : Nat) (hn : 1 ≤ n) :
    limitedRead r st (n : Int) size =
      ⟨(r.Read st (min size n)).data, (r.Read st (min size n)).err,
        ((r.Read st (min size n)).next, (n : Int) - (r.Read st (min size n)).data.length)⟩ := by
  have hk : (if (size : Int) > (n : Int) then (n : Int).toNat else size) = min size n := by
    split_ifs with hc
    · simp only [Int.toNat_ofNat]; omega
    · omega
  simp only [limitedRead, hk]
  rw [if_neg (by omega)]

theorem copyLoop_script_nil (size fuel n : Nat) (hn : 1 ≤ n) (h : List UInt8) (w : Int) :
    copyLoop scriptReader size (fuel + 1) ([] : Script) (n : Int) h w = some ⟨w, none, [], h⟩ := by
  rw [copyLoop_succ, limitedRead_pos _ _ _ _ hn]
  simp [scriptReader, scriptRead, errOf]

theorem copyLoop_script_fit (size fuel n : Nat) (hn : 1 ≤ n) (seg : Segment) (rest : Script)
    (h : List UInt8) (w : Int) (hfit : seg.data.length ≤ min size n) :
    copyLoop scriptReader size (fuel + 1) (seg :: rest) (n : Int) h w =
      match seg.err with
      | some er => some ⟨w + seg.data.length, errOf er, rest, h ++ seg.data⟩
      | none => copyLoop scriptReader size fuel rest ((n - seg.data.length : Nat) : Int)
          (h ++ seg.data) (w + seg.data.length) := by
  rw [copyLoop_succ, limitedRead_pos _ _ _ _ hn]
  have hle : seg.data.length ≤ n := le_trans hfit (min_le_right _ _)
  simp only [scriptReader, scriptRead, if_pos hfit, Nat.cast_sub hle]

theorem copyLoop_script_split (size fuel n : Nat) (hn : 1 ≤ n) (seg : Segment) (rest : Script)
    (h : List UInt8) (w : Int) (hsplit : min size n < seg.data.length) :
    copyLoop scriptReader size (fuel + 1) (seg :: rest) (n : Int) h w =
      copyLoop scriptReader size fuel (⟨seg.data.drop (min size n), seg.err⟩ :: rest)
        ((n - min size n : Nat) : Int) (h ++ seg.data.take (min size n))
        (w + (min size n : Nat)) := by
  rw [copyLoop_succ, limitedRead_pos _ _ _ _ hn]
  have hlen : (seg.data.take (min size n)).length = min size n := by
    rw [List.length_take]; omega
  simp only [scriptReader, scriptRead, if_neg (not_le.mpr hsplit), hlen,
    Nat.cast_sub (min_le_right size n)]

theorem CopySpec.transfer {size : Nat} {e : GoError} {post pre tail : Script}
    (pre2 tail2 : Script) {d : List UInt8} (d2 c : List UInt8) {n : Nat} {h : List UInt8}
    {w : Int} {f : Nat}
    (hstep : copyLoop scriptReader size (f + 1) (pre ++ tail) (n : Int) h w =
      copyLoop scriptReader size f (pre2 ++ tail2) ((n - c.length : Nat) : Int) (h ++ c)
        (w + (c.length : Nat)))
    (hc : c.length ≤ n)
    (hcont : content pre ++ d = c ++ (content pre2 ++ d2))
    (hd : d2 = [] ↔ d = [])
    (hw : weight pre2 + d2.length + c.length ≤ weight pre + d.length)
    (hI : (content pre).length < n ∧ (content pre).length + d.length ≤ n →
      (content pre2).length < n - c.length ∧ (content pre2).length + d2.length ≤ n - c.length)
    (hII : n ≤ (content pre).length ∨ n < (content pre).length + d.length →
      n - c.length ≤ (content pre2).length ∨ n - c.length < (content pre2).length + d2.length)
    (ih : CopySpec size e post pre2 tail2 d2 (n - c.length) (h ++ c) (w + (c.length : Nat)) f) :
    CopySpec size e post pre tail d n h w (f + 1) := by
  have hlen : (content pre).length + d.length = c.length + ((content pre2).length + d2.length) := by
    have := congrArg List.length hcont
    simpa [List.length_append] using this
  constructor
  · intro h1
    rw [hstep, ih.1 (hI h1), hcont, hlen]
    simp only [List.append_assoc, Nat.cast_add, add_assoc]
  · intro h2
    obtain ⟨pre', tail', d', taken, hp, hf, htl, htc, hdd, hww, heq⟩ := ih.2 (hII h2)
    refine ⟨pre', tail', d', c ++ taken, hp, hf, ?_, ?_, hdd.trans hd, by omega, ?_⟩
    · rw [List.length_append, htl]; omega
    · rw [List.append_assoc, htc, hcont]
    · rw [hstep, heq]
      have : (w + (c.length : Nat) + ((n - c.length : Nat) : Int)) = w + (n : Nat) := by omega
      simp only [List.append_assoc, this]

theorem copyLoop_script (size : Nat) (hsize : 1 ≤ size) (e : GoError) (post : Script) :
    ∀ (m : Nat) (pre tail : Script) (d : List UInt8) (n : Nat) (h : List UInt8) (w : Int)
      (fuel : Nat), dataOnly pre → Fires tail d e post → weight pre + d.length ≤ m →
      m + 1 ≤ fuel → CopySpec size e post pre tail d n h w fuel := by
  intro m
  induction m using Nat.strong_induction_on with
  | _ m ih =>
    intro pre tail d n h w fuel hpre hfire hm hfuel
    obtain ⟨f, rfl⟩ : ∃ f, fuel = f + 1 := ⟨fuel - 1, by omega⟩
    rcases Nat.eq_zero_or_pos n with hn0 | hnpos
    · subst hn0
      refine ⟨fun hI => absurd hI.1 (Nat.not_lt_zero _), fun _ => ?_⟩
      refine ⟨pre, tail, d, [], hpre, hfire, rfl, by simp, Iff.rfl, by omega, ?_⟩
      rw [copyLoop_nonpos _ _ _ _ _ _ _ (by simp)]
      simp
    · have hk1 : 1 ≤ min size n := le_min hsize hnpos
      have hkn : min size n ≤ n := min_le_right _ _
      cases pre with
      | nil =>
        rcases hfire with rfl | ⟨rfl, rfl, rfl, rfl⟩
        · by_cases hfit : d.length ≤ min size n
          · constructor
            · intro _
              rw [List.nil_append, copyLoop_script_fit _ _ _ hnpos _ _ _ _ hfit]
              simp
            · intro hII
              simp only [content_nil, List.length_nil, Nat.zero_add] at hII
              omega
          · push_neg at hfit
            simp only [weight_nil, Nat.zero_add] at hm
            have hdl : (d.drop (min size n)).length = d.length - min size n := List.length_drop _ _
            have htl : (d.take (min size n)).length = min size n := by
              rw [List.length_take]; omega
            refine CopySpec.transfer [] (⟨d.drop (min size n), some e⟩ :: post)
              (d.drop (min size n)) (d.take (min size n)) ?_ ?_ ?_ ?_ ?_ ?_ ?_ ?_
            · rw [List.nil_append, copyLoop_script_split _ _ _ hnpos _ _ _ _ hfit, htl]
              rfl
            · omega
            · simp
            · constructor
              · intro h0
                have := congrArg List.length h0
                simp only [hdl, List.length_nil] at this
                omega
              · intro h0
                subst h0
                simp at hfit
            · simp only [weight_nil, hdl, htl]; omega
            · simp only [content_nil, List.length_nil, hdl, htl]; omega
            · simp only [content_nil, List.length_nil, hdl, htl]; omega
            · rw [htl]
              exact ih (d.length - min size n) (by omega) [] _ _ _ _ _ f (by intro _ hx; cases hx)
                (Or.inl rfl) (by simp only [weight_nil, hdl]; omega) (by omega)
        · constructor
          · intro _
            rw [List.nil_append, copyLoop_script_nil _ _ _ hnpos]
            simp [errOf]
          · intro hII
            simp only [content_nil, List.length_nil, Nat.zero_add] at hII
            omega
      | cons seg rest =>
        have herr : seg.err = none := hpre seg (List.mem_cons_self _ _)
        have hrest : dataOnly rest := fun x hx => hpre x (List.mem_cons_of_mem _ hx)
        simp only [weight_cons] at hm
        by_cases hfit : seg.data.length ≤ min size n
        · refine CopySpec.transfer rest tail d seg.data ?_ ?_ ?_ ?_ ?_ ?_ ?_ ?_
          · rw [List.cons_append, copyLoop_script_fit _ _ _ hnpos _ _ _ _ hfit, herr]
          · omega
          · simp
          · exact Iff.rfl
          · simp only [weight_cons]; omega
          · simp only [content_cons, List.length_append]; omega
          · simp only [content_cons, List.length_append]; omega
          · exact ih (weight rest + d.length) (by omega) rest tail d _ _ _ f hrest hfire
              (le_refl _) (by omega)
        · push_neg at hfit
          have hdl : (seg.data.drop (min size n)).length = seg.data.length - min size n :=
            List.length_drop _ _
          have htl : (seg.data.take (min size n)).length = min size n := by
            rw [List.length_take]; omega
          have hpre2 : dataOnly (⟨seg.data.drop (min size n), none⟩ :: rest) := by
            intro x hx
            rcases List.mem_cons.mp hx with rfl | hx
            · rfl
            · exact hrest x hx
          refine CopySpec.transfer (⟨seg.data.drop (min size n), none⟩ :: rest) tail d
            (seg.data.take (min size n)) ?_ ?_ ?_ ?_ ?_ ?_ ?_ ?_
          · rw [List.cons_append, copyLoop_script_split _ _ _ hnpos _ _ _ _ hfit, htl, herr]
            rfl
          · omega
          · simp only [content_cons, List.append_assoc]
            rw [← List.append_assoc (List.take _ _), List.take_append_drop]
          · exact Iff.rfl
          · simp only [weight_cons, hdl, htl]; omega
          · simp only [content_cons, List.length_append, hdl, htl]; omega
          · simp only [content_cons, List.length_append, hdl, htl]; omega
          · rw [htl]
            exact ih (weight rest + (seg.data.length - min size n) + 1 + d.length) (by omega)
              _ tail d _ _ _ f hpre2 hfire (by simp only [weight_cons, hdl]; omega) (by omega)

theorem chunkList_nil (s : Nat) (hs : 1 ≤ s) : chunkList s [] = [] := by
  have : ([] : List UInt8).length + s - 1 = s - 1 := by simp
  simp only [chunkList, this]
  rw [Nat.div_eq_of_lt (by omega)]
  rfl

theorem chunkList_short (s : Nat) (b : List UInt8) (hb : 0 < b.length) (hbs : b.length ≤ s) :
    chunkList s b = [b] := by
  have h1 : (b.length + s - 1) / s = 1 := by
    apply Nat.div_eq_of_lt_le <;> omega
  have h2 : List.range 1 = [0] := rfl
  simp only [chunkList, h1, h2, List.map_cons, List.map_nil, Nat.zero_mul, List.drop_zero]
  rw [List.take_of_length_le hbs]

theorem chunkList_append (s : Nat) (hs : 1 ≤ s) (c b : List UInt8) (hc : c.length = s) :
    chunkList s (c ++ b) = c :: chunkList s b := by
  have h1 : ((c ++ b).length + s - 1) / s = (b.length + s - 1) / s + 1 := by
    rw [List.length_append, hc]
    have : s + b.length + s - 1 = (b.length + s - 1) + s := by omega
    rw [this, Nat.add_div_right _ (by omega)]
  simp only [chunkList, h1, List.range_succ_eq_map, List.map_cons, List.map_map, Nat.zero_mul,
    List.drop_zero]
  congr 1
  · rw [List.take_left' hc]
  · apply List.map_congr_left
    intro i _
    simp only [Function.comp]
    have : (i + 1) * s = c.length + i * s := by rw [hc]; ring
    rw [this, List.drop_append]

theorem bufSize_pos (n : Int) : 1 ≤ bufSize n := by
  unfold bufSize
  split_ifs <;> omega

theorem calculateMD5sLoop_continue {σ : Type} (r : Reader σ) (s : Int) (f : Nat) (st st1 : σ)
    (h h1 : List UInt8) (md5s : List String) (n : Int) (hn : 0 < n)
    (hc : CopyN f r st h s = some ⟨n, none, st1, h1⟩) :
    calculateMD5sLoop r s (f + 1) st h md5s =
      calculateMD5sLoop r s f st1 [] (md5s ++ [md5hex h1]) := by
  rw [calculateMD5sLoop, hc]
  simp only [gt_iff_lt, hn, if_true, md5hex]

theorem calculateMD5sLoop_return {σ : Type} (r : Reader σ) (s : Int) (f : Nat) (st st1 : σ)
    (h h1 : List UInt8) (md5s : List String) (n : Int) (er : GoError)
    (hc : CopyN f r st h s = some ⟨n, some er, st1, h1⟩) :
    calculateMD5sLoop r s (f + 1) st h md5s =
      some ⟨if 0 < n then md5s ++ [md5hex h1] else md5s, errOf er, st1⟩ := by
  rw [calculateMD5sLoop, hc]
  simp only [gt_iff_lt, md5hex, errOf]

theorem CopyN_of_copyLoop_full {σ : Type} (f : Nat) (r : Reader σ) (st st1 : σ)
    (h h1 : List UInt8) (n : Int) (er : Option GoError)
    (hc : copyLoop r (bufSize n) f st n h 0 = some ⟨n, er, st1, h1⟩) :
    CopyN f r st h n = some ⟨n, none, st1, h1⟩ := by
  rw [CopyN, hc]
  simp

theorem CopyN_of_copyLoop_short {σ : Type} (f : Nat) (r : Reader σ) (st st1 : σ)
    (h h1 : List UInt8) (n w : Int) (e : GoError) (hw : w < n)
    (hc : copyLoop r (bufSize n) f st n h 0 = some ⟨w, errOf e, st1, h1⟩) :
    CopyN f r st h n = some ⟨w, some e, st1, h1⟩ := by
  rw [CopyN, hc]
  simp only [ne_of_lt hw, if_false, hw, true_and]
  by_cases he : e = GoError.EOF
  · simp [errOf, he]
  · simp [errOf, he]

/-- The hashing loop on a script whose first error `e` sits at the head of
`tail`: the chunks up to that answer are hashed; the error is returned unless
the answer carrying it delivers the last bytes of a chunk, in which case the
loop goes on with the rest of the script. -/
theorem calculateMD5sLoop_script (s : Nat) (hs : 1 ≤ s) (e : GoError) (post : Script) :
    ∀ (m : Nat) (pre tail : Script) (d : List UInt8) (md5s : List String) (fuel : Nat),
      dataOnly pre → Fires tail d e post → (content pre).length + d.length ≤ m →
      weight pre + d.length + ((content pre).length + d.length) + 2 ≤ fuel →
      calculateMD5sLoop scriptReader (s : Int) fuel (pre ++ tail) [] md5s =
        if ((content pre).length + d.length) % s = 0 ∧ d ≠ [] then
          calculateMD5sLoop scriptReader (s : Int)
            (fuel - ((content pre).length + d.length) / s) post []
            (md5s ++ (chunkList s (content pre ++ d)).map md5hex)
        else some ⟨md5s ++ (chunkList s (content pre ++ d)).map md5hex, errOf e, post⟩ := by
  intro m
  induction m using Nat.strong_induction_on with
  | _ m ih =>
    intro pre tail d md5s fuel hpre hfire hm hfuel
    obtain ⟨f, rfl⟩ : ∃ f, fuel = f + 1 := ⟨fuel - 1, by omega⟩
    have hspec := copyLoop_script (bufSize s) (bufSize_pos _) e post (weight pre + d.length)
      pre tail d s [] 0 f hpre hfire (le_refl _) (by omega)
    by_cases hA : (content pre).length < s ∧ (content pre).length + d.length ≤ s
    · have hcopy := hspec.1 hA
      rw [zero_add, List.nil_append] at hcopy
      by_cases hT : (content pre).length + d.length = s
      · have hd : d ≠ [] := by
          intro h0
          subst h0
          simp at hT
          omega
        have hB : 0 < (content pre ++ d).length ∧ (content pre ++ d).length ≤ s := by
          rw [List.length_append]; omega
        rw [hT] at hcopy
        rw [calculateMD5sLoop_continue _ _ _ _ _ _ _ _ _ (by omega)
          (CopyN_of_copyLoop_full _ _ _ _ _ _ _ _ hcopy)]
        rw [if_pos ⟨by rw [hT, Nat.mod_self], hd⟩, hT, Nat.div_self (by omega),
          Nat.add_sub_cancel, chunkList_short s _ hB.1 hB.2]
        rfl
      · have hlt : (content pre).length + d.length < s := by omega
        have hcond : ¬ (((content pre).length + d.length) % s = 0 ∧ d ≠ []) := by
          rw [Nat.mod_eq_of_lt hlt]
          rintro ⟨h0, hd⟩
          apply hd
          apply List.eq_nil_of_length_eq_zero
          omega
        rw [calculateMD5sLoop_return _ _ _ _ _ _ _ _ _ _
          (CopyN_of_copyLoop_short _ _ _ _ _ _ _ _ e (by omega) hcopy), if_neg hcond]
        by_cases h0 : (content pre).length + d.length = 0
        · have hB : content pre ++ d = [] := by
            apply List.eq_nil_of_length_eq_zero
            rw [List.length_append]; exact h0
          rw [if_neg (by omega), hB, chunkList_nil s hs]
          simp
        · have hB : 0 < (content pre ++ d).length ∧ (content pre ++ d).length ≤ s := by
            rw [List.length_append]; omega
          rw [if_pos (by omega), chunkList_short s _ hB.1 hB.2]
          rfl
    · have hB : s ≤ (content pre).length ∨ s < (content pre).length + d.length := by omega
      obtain ⟨pre', tail', d', taken, hp, hf, htl, htc, hdd, hww, hcopy⟩ := hspec.2 hB
      rw [zero_add, List.nil_append] at hcopy
      rw [calculateMD5sLoop_continue _ _ _ _ _ _ _ _ _ (by omega)
        (CopyN_of_copyLoop_full _ _ _ _ _ _ _ _ hcopy)]
      have hlen : (content pre).length + d.length = s + ((content pre').length + d'.length) := by
        have := congrArg List.length htc
        simp only [List.length_append, htl] at this
        omega
      rw [ih ((content pre').length + d'.length) (by omega) pre' tail' d' _ f hp hf (le_refl _)
        (by omega)]
      have hmod : ((content pre).length + d.length) % s =
          ((content pre').length + d'.length) % s := by
        rw [hlen, Nat.add_mod_left]
      have hdiv : ((content pre).length + d.length) / s =
          ((content pre').length + d'.length) / s + 1 := by
        rw [hlen, Nat.add_comm s, Nat.add_div_right _ (by omega)]
      have hne : d' ≠ [] ↔ d ≠ [] := not_congr hdd
      rw [← htc, chunkList_append s hs taken _ htl, hmod, hdiv]
      simp only [hne, List.map_cons, List.append_assoc, List.singleton_append,
        Nat.add_sub_add_right]

theorem dataOnly_nil : dataOnly [] := by
  intro _ hx
  cases hx

theorem Clean.split : ∀ (sc : Script), Clean sc = true →
    ∃ pre tail d, sc = pre ++ tail ∧ dataOnly pre ∧ Fires tail d GoError.EOF [] ∧
      content sc = content pre ++ d ∧ weight pre + d.length ≤ weight sc := by
  intro sc
  induction sc with
  | nil =>
    intro _
    exact ⟨[], [], [], rfl, dataOnly_nil, Or.inr ⟨rfl, rfl, rfl, rfl⟩, rfl, le_refl _⟩
  | cons seg rest ih =>
    intro hc
    simp only [Clean, Bool.or_eq_true, Bool.and_eq_true, beq_iff_eq, List.isEmpty_iff] at hc
    rcases hc with ⟨herr, hrest⟩ | ⟨herr, hrest⟩
    · obtain ⟨pre, tail, d, hsc, hp, hf, hcont, hw⟩ := ih hrest
      refine ⟨seg :: pre, tail, d, by rw [hsc]; rfl, ?_, hf, ?_, ?_⟩
      · intro x hx
        rcases List.mem_cons.mp hx with rfl | hx
        · exact herr
        · exact hp x hx
      · rw [content_cons, content_cons, hcont, List.append_assoc]
      · rw [weight_cons, weight_cons]; omega
    · subst hrest
      refine ⟨[], [seg], seg.data, rfl, dataOnly_nil, Or.inl ?_, by simp, ?_⟩
      · cases seg with
        | mk dd ee => simp only at herr; rw [herr]
      · rw [weight_cons]; simp

theorem chunkList_length (s : Nat) (b : List UInt8) :
    (chunkList s b).length = (b.length + s - 1) / s := by
  simp [chunkList]

theorem chunkList_getElem_opt (s : Nat) (b : List UInt8) (i : Nat)
    (hi : i < (chunkList s b).length) :
    (chunkList s b)[i]? = some ((b.drop (i * s)).take s) := by
  rw [chunkList_length] at hi
  simp [chunkList, List.getElem?_range hi]

theorem chunk_full (s : Nat) (b : List UInt8) (i : Nat) (hs : 1 ≤ s)
    (hi : i + 1 < (b.length + s - 1) / s) : ((b.drop (i * s)).take s).length = s := by
  have h1 : (b.length + s - 1) / s * s ≤ b.length + s - 1 := Nat.div_mul_le_self _ _
  have h2 : (i + 2) * s ≤ (b.length + s - 1) / s * s := Nat.mul_le_mul_right s hi
  have h3 : (i + 2) * s = i * s + 2 * s := by ring
  rw [List.length_take, List.length_drop]
  omega

theorem chunk_last (s : Nat) (b : List UInt8) (i : Nat) (hs : 1 ≤ s)
    (hi : i + 1 = (b.length + s - 1) / s) :
    1 ≤ ((b.drop (i * s)).take s).length ∧ ((b.drop (i * s)).take s).length ≤ s := by
  have h1 : (b.length + s - 1) / s * s ≤ b.length + s - 1 := Nat.div_mul_le_self _ _
  rw [← hi] at h1
  have h3 : (i + 1) * s = i * s + s := by ring
  rw [List.length_take, List.length_drop]
  omega

/-- The run of `calculateMD5s` on a clean stream. -/
theorem calculateMD5s_clean (s : Nat) (hs : 1 ≤ s) (sc : Script) (hc : Clean sc = true)
    (fuel : Nat) (hf : scriptFuel sc ≤ fuel) :
    calculateMD5s fuel scriptReader sc (s : Int) =
      some ⟨(chunkList s (content sc)).map md5hex, none, []⟩ := by
  obtain ⟨pre, tail, d, hsc, hp, hfire, hcont, hw⟩ := Clean.split sc hc
  have hT : (content pre).length + d.length ≤ weight sc := by
    have := congrArg List.length hcont
    rw [List.length_append] at this
    unfold weight
    omega
  unfold scriptFuel at hf
  have key1 := calculateMD5sLoop_script s hs GoError.EOF [] _ pre tail d [] fuel hp
    hfire (le_refl _) (by omega)
  rw [← hsc, ← hcont, List.nil_append] at key1
  rw [calculateMD5s, key1]
  split_ifs with hcomp
  · have hdiv : ((content pre).length + d.length) / s ≤ (content pre).length + d.length :=
      Nat.div_le_self _ _
    have key := calculateMD5sLoop_script s hs GoError.EOF [] 0 [] [] []
      ((chunkList s (content sc)).map md5hex)
      (fuel - ((content pre).length + d.length) / s) dataOnly_nil
      (Or.inr ⟨rfl, rfl, rfl, rfl⟩) (le_refl _) (by simp; omega)
    rw [List.append_nil] at key
    rw [key]
    simp [chunkList_nil s hs, errOf]
  · simp [errOf]

/-- C1: for a chunk size `s >= 1` and a stream that delivers the bytes `b` and
then ends cleanly, `calculateMD5s` returns, with a nil error, the list of the
hex MD5 digests of the consecutive ranges `b[i*s .. min((i+1)*s, len b))`,
`i < ceil(len b / s)`, in order; every range but the last has `s` bytes and the
last has between 1 and `s`. -/
theorem calculateMD5s_hashes_consecutive_chunks (s : Nat) (hs : 1 ≤ s) (sc : Script)
    (hc : Clean sc = true) (fuel : Nat) (hf : scriptFuel sc ≤ fuel) :
    calculateMD5s fuel scriptReader sc (s : Int) =
        some ⟨(chunkList s (content sc)).map md5hex, none, []⟩ ∧
      ((chunkList s (content sc)).map md5hex).length = ((content sc).length + s - 1) / s ∧
      (∀ i, i < ((content sc).length + s - 1) / s →
        ((chunkList s (content sc)).map md5hex)[i]? =
          some (md5hex (((content sc).drop (i * s)).take s))) ∧
      (∀ i, i + 1 < ((content sc).length + s - 1) / s →
        (((content sc).drop (i * s)).take s).length = s) ∧
      (∀ i, i + 1 = ((content sc).length + s - 1) / s →
        1 ≤ (((content sc).drop (i * s)).take s).length ∧
          (((content sc).drop (i * s)).take s).length ≤ s) := by
  refine ⟨calculateMD5s_clean s hs sc hc fuel hf, ?_, ?_, ?_, ?_⟩
  · rw [List.length_map, chunkList_length]
  · intro i hi
    rw [List.getElem?_map, chunkList_getElem_opt s _ i (by rw [chunkList_length]; exact hi)]
    rfl
  · intro i hi
    exact chunk_full s _ i hs hi
  · intro i hi
    exact chunk_last s _ i hs hi

/-- C1 on 25 bytes with chunk size 10, read in short reads: three hashes, over
the bytes `[0,10)`, `[10,20)` and `[20,25)`. -/
theorem calculateMD5s_hashes_consecutive_chunks_witness :
    (1 ≤ 10 ∧ Clean stream25 = true ∧ scriptFuel stream25 ≤ 100) ∧
      calculateMD5s 100 scriptReader stream25 (10 : Int) =
        some ⟨["e86410fa2d6e2634fd8ac5f4b3afe7f3", "d123d9c26465577a2d10958881c9b31a",
          "b1fc414167c923b329562f6619db1cf7"], none, []⟩ ∧
      [md5hex (sample25.take 10), md5hex ((sample25.drop 10).take 10),
          md5hex (sample25.drop 20)] =
        ["e86410fa2d6e2634fd8ac5f4b3afe7f3", "d123d9c26465577a2d10958881c9b31a",
          "b1fc414167c923b329562f6619db1cf7"] :=
  ⟨⟨by decide, by decide, by decide⟩,
    (calculateMD5s_hashes_consecutive_chunks 10 (by decide) stream25 (by decide) 100
      (by decide)).1.trans (by decide),
    by decide⟩

theorem CopyN_nonpos {σ : Type} (r : Reader σ) (f : Nat) (st : σ) (h : List UInt8) (s : Int)
    (hs : s ≤ 0) : CopyN (f + 1) r st h s = some ⟨0, none, st, h⟩ := by
  rw [CopyN, copyLoop_nonpos _ _ _ _ _ _ _ hs]
  by_cases h0 : (0 : Int) = s
  · subst h0
    simp
  · have h1 : ¬ ((0 : Int) < s) := by omega
    simp [h0, h1]

theorem calculateMD5sLoop_nonpos {σ : Type} (r : Reader σ) (s : Int) (hs : s ≤ 0) :
    ∀ (fuel : Nat) (st : σ) (h : List UInt8) (md5s : List String),
      calculateMD5sLoop r s fuel st h md5s = none := by
  intro fuel
  induction fuel with
  | zero => intro st h md5s; rfl
  | succ f ih =>
    intro st h md5s
    cases f with
    | zero => rfl
    | succ g =>
      rw [calculateMD5sLoop, CopyN_nonpos r g st h s hs]
      simp only [gt_iff_lt, lt_self_iff_false, if_false]
      exact ih st h md5s

theorem clamp_eq_min (C S : Int) : (if C > S then S else C) = min C S := by
  split_ifs <;> omega

theorem assembleManifest_ok {σ : Type} (fuel : Nat) (fs : FS σ) (path url : String) (C S : Int)
    (f : File σ) (hashed : Hashed σ) (hopen : fs.Open path = .ok f) (hstat : f.Stat = .ok S)
    (hrun : calculateMD5s fuel f.r f.st (min C S) = some hashed) (herr : hashed.err = none) :
    assembleManifest fuel fs path url C =
      some (.ok ⟨[⟨[⟨"software-package", min C S, hashed.md5s, url⟩], none⟩]⟩) := by
  simp only [assembleManifest, hopen, hstat, clamp_eq_min, hrun, herr]

theorem assembleManifest_inv {σ : Type} (fuel : Nat) (fs : FS σ) (path url : String) (C : Int)
    (m : manifest) (h : assembleManifest fuel fs path url C = some (.ok m)) :
    ∃ f S hashed, fs.Open path = .ok f ∧ f.Stat = .ok S ∧
      calculateMD5s fuel f.r f.st (min C S) = some hashed ∧ hashed.err = none ∧
      m = ⟨[⟨[⟨"software-package", min C S, hashed.md5s, url⟩], none⟩]⟩ := by
  unfold assembleManifest at h
  cases hopen : fs.Open path with
  | error e => rw [hopen] at h; simp at h
  | ok f =>
    rw [hopen] at h
    simp only at h
    cases hstat : f.Stat with
    | error e => rw [hstat] at h; simp at h
    | ok S =>
      rw [hstat] at h
      simp only [clamp_eq_min] at h
      cases hrun : calculateMD5s fuel f.r f.st (min C S) with
      | none => rw [hrun] at h; simp at h
      | some hashed =>
        rw [hrun] at h
        simp only at h
        cases herr : hashed.err with
        | some e => rw [herr] at h; simp at h
        | none =>
          rw [herr] at h
          simp only [Option.some.injEq, Except.ok.injEq] at h
          exact ⟨f, S, hashed, rfl, hstat, hrun, herr, h.symm⟩

theorem assembleManifest_clean (fuel : Nat) (fs : FS Script) (path url : String) (C : Int)
    (f : File Script) (hopen : fs.Open path = .ok f) (hr : f.r = scriptReader)
    (hclean : Clean f.st = true) (hstat : f.Stat = .ok ((content f.st).length : Int))
    (hpos : 0 < (content f.st).length) (hC : 1 ≤ C) (hfuel : scriptFuel f.st ≤ fuel) :
    assembleManifest fuel fs path url C =
      some (.ok ⟨[⟨[⟨"software-package", min C ((content f.st).length : Int),
        (chunkList (min C ((content f.st).length : Int)).toNat (content f.st)).map md5hex,
        url⟩], none⟩]⟩) := by
  have hk : (((min C ((content f.st).length : Int)).toNat : Nat) : Int) =
      min C ((content f.st).length : Int) := by
    rw [Int.toNat_of_nonneg]; omega
  have hrun := calculateMD5s_clean (min C ((content f.st).length : Int)).toNat (by omega)
    f.st hclean fuel hfuel
  rw [hk, ← hr] at hrun
  exact assembleManifest_ok fuel fs path url C _ f _ hopen hstat hrun rfl

/-- C2: for a file of size `S > 0` and a requested chunk size `C >= 1`,
`createAppManifest` hands the encoder a manifest whose asset records the
clamped chunk size `min C S` and has exactly `ceil(S / min C S)` entries in its
`MD5s` list. -/
theorem createAppManifest_hash_count (fuel : Nat) (fs : FS Script) (enc : Encoder)
    (path url : String) (writer : List UInt8) (C : Int) (f : File Script)
    (hopen : fs.Open path = .ok f) (hr : f.r = scriptReader) (hclean : Clean f.st = true)
    (hstat : f.Stat = .ok ((content f.st).length : Int)) (hpos : 0 < (content f.st).length)
    (hC : 1 ≤ C) (hfuel : scriptFuel f.st ≤ fuel) :
    assembleManifest fuel fs path url C =
        some (.ok ⟨[⟨[⟨"software-package", min C ((content f.st).length : Int),
          (chunkList (min C ((content f.st).length : Int)).toNat (content f.st)).map md5hex,
          url⟩], none⟩]⟩) ∧
      createAppManifest fuel fs enc path url writer C =
        some ((enc ⟨[⟨[⟨"software-package", min C ((content f.st).length : Int),
          (chunkList (min C ((content f.st).length : Int)).toNat (content f.st)).map md5hex,
          url⟩], none⟩]⟩).2,
          writer ++ (enc ⟨[⟨[⟨"software-package", min C ((content f.st).length : Int),
            (chunkList (min C ((content f.st).length : Int)).toNat (content f.st)).map md5hex,
            url⟩], none⟩]⟩).1) ∧
      ((((chunkList (min C ((content f.st).length : Int)).toNat (content f.st)).map
          md5hex).length : Nat) : Int) =
        (((content f.st).length : Int) + min C ((content f.st).length : Int) - 1) /
          min C ((content f.st).length : Int) := by
  have hasm := assembleManifest_clean fuel fs path url C f hopen hr hclean hstat hpos hC hfuel
  have hk : (((min C ((content f.st).length : Int)).toNat : Nat) : Int) =
      min C ((content f.st).length : Int) := by
    rw [Int.toNat_of_nonneg]; omega
  have hk1 : 1 ≤ (min C ((content f.st).length : Int)).toNat := by omega
  refine ⟨hasm, ?_, ?_⟩
  · rw [createAppManifest, hasm]
  · rw [List.length_map, chunkList_length, Int.natCast_div, Nat.cast_sub (by omega),
      Nat.cast_add, hk]
    rfl

/-- C2 on a three-byte file with chunk size 2: two hashes, `ceil(3 / 2)`. -/
theorem createAppManifest_hash_count_witness :
    (1 ≤ (2 : Int) ∧ 0 < (content file3.st).length ∧ Clean file3.st = true) ∧
      createAppManifest 50 (singleFile "a.pkg" file3) countingEncoder "a.pkg" "u" [] 2 =
        some (none, [35, 35]) ∧
      ((2 : Nat) : Int) = ((3 : Int) + min 2 3 - 1) / min 2 3 :=
  ⟨⟨by decide, by decide, by decide⟩,
    (createAppManifest_hash_count 50 (singleFile "a.pkg" file3) countingEncoder "a.pkg" "u" []
      2 file3 rfl rfl (by decide) rfl (by decide) (by decide) (by decide)).2.1.trans
      (by decide),
    (createAppManifest_hash_count 50 (singleFile "a.pkg" file3) countingEncoder "a.pkg" "u" []
      2 file3 rfl rfl (by decide) rfl (by decide) (by decide) (by decide)).2.2⟩

/-- C3, the code at a non-positive chunk size: whatever the fuel,
`calculateMD5s` with chunk size 0 or -1 on a three-byte stream has not
returned, so it reports no error, and `createAppManifest` on that file with
chunk size 0 or -1 has not returned either. -/
theorem calculateMD5s_nonpositive_chunk_never_returns (fuel : Nat) (enc : Encoder) :
    calculateMD5s fuel scriptReader [⟨[1, 2, 3], none⟩] 0 = none ∧
      calculateMD5s fuel scriptReader [⟨[1, 2, 3], none⟩] (-1) = none ∧
      createAppManifest fuel (singleFile "a.pkg" file3) enc "a.pkg" "" [] 0 = none ∧
      createAppManifest fuel (singleFile "a.pkg" file3) enc "a.pkg" "" [] (-1) = none := by
  refine ⟨calculateMD5sLoop_nonpos _ _ (by decide) _ _ _ _,
    calculateMD5sLoop_nonpos _ _ (by decide) _ _ _ _, ?_, ?_⟩
  · simp [createAppManifest, assembleManifest, singleFile, file3, regularFile, calculateMD5s,
      calculateMD5sLoop_nonpos]
  · simp [createAppManifest, assembleManifest, singleFile, file3, regularFile, calculateMD5s,
      calculateMD5sLoop_nonpos]

/-- C4, the code on a 0-byte file: the chunk size is clamped to 0 and, whatever
the fuel and the requested chunk size `C >= 1` (here 1 and the default),
`createAppManifest` has not returned: no empty hash list is produced. -/
theorem createAppManifest_empty_file_never_returns (fuel : Nat) (enc : Encoder) :
    (regularFile []).Stat = .ok 0 ∧
      createAppManifest fuel (singleFile "empty.pkg" (regularFile [])) enc "empty.pkg" "" []
        DefaultMD5Size = none ∧
      createAppManifest fuel (singleFile "empty.pkg" (regularFile [])) enc "empty.pkg" "" []
        1 = none := by
  refine ⟨rfl, ?_, ?_⟩
  · simp [createAppManifest, assembleManifest, singleFile, regularFile, calculateMD5s,
      calculateMD5sLoop_nonpos, DefaultMD5Size]
  · simp [createAppManifest, assembleManifest, singleFile, regularFile, calculateMD5s,
      calculateMD5sLoop_nonpos]

/-- C5: for a non-empty file of size `S` and a requested chunk size `C > S`,
the asset records `S` as its chunk size and its `MD5s` list is the single hex
MD5 digest of the whole file content. -/
theorem createAppManifest_oversized_chunk_single_hash (fuel : Nat) (fs : FS Script)
    (enc : Encoder) (path url : String) (writer : List UInt8) (C : Int) (f : File Script)
    (hopen : fs.Open path = .ok f) (hr : f.r = scriptReader) (hclean : Clean f.st = true)
    (hstat : f.Stat = .ok ((content f.st).length : Int)) (hpos : 0 < (content f.st).length)
    (hC : ((content f.st).length : Int) < C) (hfuel : scriptFuel f.st ≤ fuel) :
    assembleManifest fuel fs path url C =
        some (.ok ⟨[⟨[⟨"software-package", ((content f.st).length : Int),
          [md5hex (content f.st)], url⟩], none⟩]⟩) ∧
      createAppManifest fuel fs enc path url writer C =
        some ((enc ⟨[⟨[⟨"software-package", ((content f.st).length : Int),
          [md5hex (content f.st)], url⟩], none⟩]⟩).2,
          writer ++ (enc ⟨[⟨[⟨"software-package", ((content f.st).length : Int),
            [md5hex (content f.st)], url⟩], none⟩]⟩).1) := by
  have hasm := assembleManifest_clean fuel fs path url C f hopen hr hclean hstat hpos
    (by omega) hfuel
  have hmin : min C ((content f.st).length : Int) = ((content f.st).length : Int) := by omega
  rw [hmin, Int.toNat_ofNat, chunkList_short _ _ hpos (le_refl _), List.map_cons,
    List.map_nil] at hasm
  refine ⟨hasm, ?_⟩
  rw [createAppManifest, hasm]

/-- C5 on a three-byte file with the default chunk size: chunk size 3, one hash. -/
theorem createAppManifest_oversized_chunk_single_hash_witness :
    (0 < (content file3.st).length ∧ ((content file3.st).length : Int) < DefaultMD5Size) ∧
      createAppManifest 50 (singleFile "a.pkg" file3) countingEncoder "a.pkg" "u" []
        DefaultMD5Size = some (none, [35]) ∧
      assembleManifest 50 (singleFile "a.pkg" file3) "a.pkg" "u" DefaultMD5Size =
        some (.ok ⟨[⟨[⟨"software-package", 3, ["5289df737df57326fcdd22597afb1fac"], "u"⟩],
          none⟩]⟩) :=
  ⟨⟨by decide, by decide⟩,
    (createAppManifest_oversized_chunk_single_hash 50 (singleFile "a.pkg" file3)
      countingEncoder "a.pkg" "u" [] DefaultMD5Size file3 rfl rfl (by decide) rfl (by decide)
      (by decide) (by decide)).2.trans (by decide),
    (createAppManifest_oversized_chunk_single_hash 50 (singleFile "a.pkg" file3)
      countingEncoder "a.pkg" "u" [] DefaultMD5Size file3 rfl rfl (by decide) rfl (by decide)
      (by decide) (by decide)).1.trans (by rfl)⟩

/-- C6: in every manifest `createAppManifest` builds, for a file of size `S`
and a requested chunk size `C`, the asset's `MD5Size` is `min C S`: at most the
file size, equal to `C` when `C <= S`, and the chunk size `calculateMD5s` was
called with to obtain the asset's `MD5s`. -/
theorem createAppManifest_md5Size_clamped {σ : Type} (fuel : Nat) (fs : FS σ) (path url : String)
    (C : Int) (m : manifest) (h : assembleManifest fuel fs path url C = some (.ok m)) :
    ∃ f S hashed, fs.Open path = .ok f ∧ f.Stat = .ok S ∧
      calculateMD5s fuel f.r f.st (min C S) = some hashed ∧ hashed.err = none ∧
      m = ⟨[⟨[⟨"software-package", min C S, hashed.md5s, url⟩], none⟩]⟩ ∧
      min C S ≤ S ∧ (C ≤ S → min C S = C) := by
  obtain ⟨f, S, hashed, h1, h2, h3, h4, h5⟩ := assembleManifest_inv fuel fs path url C m h
  exact ⟨f, S, hashed, h1, h2, h3, h4, h5, min_le_right _ _, fun hle => min_eq_left hle⟩

/-- C6 on a three-byte file: a request of 2 is recorded as 2, the default
request is recorded as 3. -/
theorem createAppManifest_md5Size_clamped_witness :
    (assembleManifest 50 (singleFile "a.pkg" file3) "a.pkg" "u" 2 =
        some (.ok ⟨[⟨[⟨"software-package", 2, ["0cb988d042a7f28dd5fe2b55b3f5ac7a",
          "8666683506aacd900bbd5a74ac4edf68"], "u"⟩], none⟩]⟩)) ∧
      ∃ f S hashed, (singleFile "a.pkg" file3).Open "a.pkg" = .ok f ∧ f.Stat = .ok S ∧
        calculateMD5s 50 f.r f.st (min 2 S) = some hashed ∧ hashed.err = none ∧
        (⟨[⟨[⟨"software-package", 2, ["0cb988d042a7f28dd5fe2b55b3f5ac7a",
          "8666683506aacd900bbd5a74ac4edf68"], "u"⟩], none⟩]⟩ : manifest) =
          ⟨[⟨[⟨"software-package", min 2 S, hashed.md5s, "u"⟩], none⟩]⟩ ∧
        min 2 S ≤ S ∧ ((2 : Int) ≤ S → min 2 S = 2) :=
  ⟨by decide, createAppManifest_md5Size_clamped 50 (singleFile "a.pkg" file3) "a.pkg" "u" 2 _
    (by decide)⟩

/-- C7: for a chunk size `s >= 1` and `k >= 1`, a stream of exactly `k * s`
bytes makes `calculateMD5s` return exactly `k` hashes, each over a range of
exactly `s` bytes: no hash of an empty final window is appended. -/
theorem calculateMD5s_exact_multiple (s k : Nat) (hs : 1 ≤ s) (_hk : 1 ≤ k) (sc : Script)
    (hc : Clean sc = true) (hlen : (content sc).length = k * s) (fuel : Nat)
    (hf : scriptFuel sc ≤ fuel) :
    calculateMD5s fuel scriptReader sc (s : Int) =
        some ⟨(chunkList s (content sc)).map md5hex, none, []⟩ ∧
      ((chunkList s (content sc)).map md5hex).length = k ∧
      ∀ c ∈ chunkList s (content sc), c.length = s := by
  have hcount : ((content sc).length + s - 1) / s = k := by
    rw [hlen]
    apply Nat.div_eq_of_lt_le
    · have : k * s + s - 1 = k * s + (s - 1) := by omega
      rw [this]; omega
    · have : (k + 1) * s = k * s + s := by ring
      rw [this]; omega
  refine ⟨calculateMD5s_clean s hs sc hc fuel hf, ?_, ?_⟩
  · rw [List.length_map, chunkList_length, hcount]
  · intro c hcmem
    simp only [chunkList, hcount, List.mem_map, List.mem_range] at hcmem
    obtain ⟨i, hi, rfl⟩ := hcmem
    have h1 : (i + 1) * s ≤ k * s := Nat.mul_le_mul_right s hi
    have h2 : (i + 1) * s = i * s + s := by ring
    rw [List.length_take, List.length_drop, hlen]
    omega

theorem stream10MB_clean : Clean stream10MB = true := by
  simp only [stream10MB, Clean, List.isEmpty_nil, beq_self_eq_true, Bool.and_self,
    Bool.true_or]

theorem stream10MB_length : (content stream10MB).length = 1 * 10485760 := by
  simp only [stream10MB, content_cons, content_nil, List.append_nil, List.length_replicate,
    Nat.one_mul]

/-- C7 on a 10,485,760-byte stream with the default chunk size: one hash. -/
theorem calculateMD5s_exact_multiple_witness :
    (1 ≤ 10485760 ∧ 1 ≤ 1 ∧ Clean stream10MB = true ∧
        (content stream10MB).length = 1 * 10485760 ∧
        DefaultMD5Size = ((10485760 : Nat) : Int)) ∧
      calculateMD5s (scriptFuel stream10MB) scriptReader stream10MB ((10485760 : Nat) : Int) =
        some ⟨(chunkList 10485760 (content stream10MB)).map md5hex, none, []⟩ ∧
      ((chunkList 10485760 (content stream10MB)).map md5hex).length = 1 ∧
      ∀ c ∈ chunkList 10485760 (content stream10MB), c.length = 10485760 :=
  ⟨⟨by decide, by decide, stream10MB_clean, stream10MB_length, by decide⟩,
    calculateMD5s_exact_multiple 10485760 1 (by decide) (by decide) stream10MB
      stream10MB_clean stream10MB_length (scriptFuel stream10MB) (le_refl _)⟩

/-- C8: whenever `createAppManifest` reaches the encoder, the manifest it
hands over has exactly one item, with a nil `Metadata` and exactly one asset,
whose `Kind` is `"software-package"` and whose `URL` is the `url` argument
unchanged. -/
theorem createAppManifest_manifest_shape {σ : Type} (fuel : Nat) (fs : FS σ) (enc : Encoder)
    (path url : String) (writer : List UInt8) (C : Int) (m : manifest)
    (h : assembleManifest fuel fs path url C = some (.ok m)) :
    createAppManifest fuel fs enc path url writer C = some ((enc m).2, writer ++ (enc m).1) ∧
      ∃ a : asset, m = ⟨[⟨[a], none⟩]⟩ ∧ a.Kind = "software-package" ∧ a.URL = url := by
  obtain ⟨f, S, hashed, _, _, _, _, h5⟩ := assembleManifest_inv fuel fs path url C m h
  refine ⟨?_, ⟨_, h5, rfl, rfl⟩⟩
  rw [createAppManifest, h]

/-- C8 on a three-byte file with the empty URL. -/
theorem createAppManifest_manifest_shape_witness :
    assembleManifest 50 (singleFile "a.pkg" file3) "a.pkg" "" 3 = some (.ok manifest3) ∧
      createAppManifest 50 (singleFile "a.pkg" file3) countingEncoder "a.pkg" "" [] 3 =
        some ((countingEncoder manifest3).2, [] ++ (countingEncoder manifest3).1) ∧
      ∃ a : asset, manifest3 = ⟨[⟨[a], none⟩]⟩ ∧ a.Kind = "software-package" ∧ a.URL = "" :=
  ⟨by decide,
    createAppManifest_manifest_shape 50 (singleFile "a.pkg" file3) countingEncoder "a.pkg" ""
      [] 3 manifest3 (by decide)⟩

/-- C10: if the open fails, the stat fails or `calculateMD5s` returns an error,
`createAppManifest` returns that same error and the sink is left as it was:
nothing is written and no hash list is handed to the encoder. -/
theorem createAppManifest_error_before_write {σ : Type} (fuel : Nat) (fs : FS σ)
    (enc : Encoder) (path url : String) (writer : List UInt8) (C : Int) (e : GoError)
    (hfail : fs.Open path = .error e ∨ (∃ f, fs.Open path = .ok f ∧ f.Stat = .error e) ∨
      (∃ f S hashed, fs.Open path = .ok f ∧ f.Stat = .ok S ∧
        calculateMD5s fuel f.r f.st (min C S) = some hashed ∧ hashed.err = some e)) :
    assembleManifest fuel fs path url C = some (.error e) ∧
      createAppManifest fuel fs enc path url writer C = some (some e, writer) := by
  have hasm : assembleManifest fuel fs path url C = some (.error e) := by
    rcases hfail with h | ⟨f, h1, h2⟩ | ⟨f, S, hashed, h1, h2, h3, h4⟩
    · simp only [assembleManifest, h]
    · simp only [assembleManifest, h1, h2]
    · simp only [assembleManifest, h1, h2, clamp_eq_min, h3, h4]
  refine ⟨hasm, ?_⟩
  rw [createAppManifest, hasm]

/-- C10 on a missing file, on a file whose size cannot be read and on a file
whose reader fails after three bytes: the error comes back and the sink keeps
its one earlier byte. -/
theorem createAppManifest_error_before_write_witness :
    createAppManifest 50 (singleFile "a.pkg" file3) countingEncoder "missing.pkg" "u" [7] 2 =
        some (some (GoError.other "open: no such file"), [7]) ∧
      createAppManifest 50 (singleFile "a.pkg" noStatFile) countingEncoder "a.pkg" "u" [7] 2 =
        some (some (GoError.other "stat failed"), [7]) ∧
      calculateMD5s 50 brokenFile.r brokenFile.st (min 2 8) = some brokenHashed ∧
      createAppManifest 50 (singleFile "a.pkg" brokenFile) countingEncoder "a.pkg" "u" [7] 2 =
        some (some (GoError.other "read error"), [7]) :=
  ⟨(createAppManifest_error_before_write 50 (singleFile "a.pkg" file3) countingEncoder
      "missing.pkg" "u" [7] 2 (GoError.other "open: no such file")
      (Or.inl (by simp [singleFile]))).2,
    (createAppManifest_error_before_write 50 (singleFile "a.pkg" noStatFile) countingEncoder
      "a.pkg" "u" [7] 2 (GoError.other "stat failed")
      (Or.inr (Or.inl ⟨noStatFile, by simp [singleFile], rfl⟩))).2,
    by decide,
    (createAppManifest_error_before_write 50 (singleFile "a.pkg" brokenFile) countingEncoder
      "a.pkg" "u" [7] 2 (GoError.other "read error")
      (Or.inr (Or.inr ⟨brokenFile, 8, brokenHashed, by simp [singleFile], rfl, by decide,
        rfl⟩))).2⟩

theorem scriptReader_lawful : scriptReader.Lawful := by
  intro st k
  cases st with
  | nil => simp [scriptReader, scriptRead]
  | cons seg rest =>
    simp only [scriptReader, scriptRead]
    split_ifs with h
    · exact h
    · simp only [List.length_take]
      omega

theorem weight_append (a b : Script) : weight (a ++ b) = weight a + weight b := by
  simp only [weight, content_append, List.length_append]
  omega

theorem content_length_le_weight (sc : Script) : (content sc).length ≤ weight sc := by
  unfold weight
  omega

/-- Every script splits at its first answer that carries an error. -/
theorem Script.split_first : ∀ (sc : Script),
    (dataOnly sc) ∨ ∃ pre d e post, sc = pre ++ ⟨d, some e⟩ :: post ∧ dataOnly pre := by
  intro sc
  induction sc with
  | nil => exact Or.inl dataOnly_nil
  | cons seg rest ih =>
    cases herr : seg.err with
    | some e =>
      refine Or.inr ⟨[], seg.data, e, rest, ?_, dataOnly_nil⟩
      cases seg with
      | mk dd ee => simp only at herr; rw [herr]; rfl
    | none =>
      have hcons : ∀ pre, dataOnly pre → dataOnly (seg :: pre) := by
        intro pre hp x hx
        rcases List.mem_cons.mp hx with rfl | hx
        · exact herr
        · exact hp x hx
      rcases ih with h | ⟨pre, d, e, post, hsc, hp⟩
      · exact Or.inl (hcons rest h)
      · exact Or.inr ⟨seg :: pre, d, e, post, by rw [hsc]; rfl, hcons pre hp⟩

/-- The run on a script split at its first error. -/
theorem calculateMD5s_first_error (s : Nat) (hs : 1 ≤ s) (pre post : Script) (d : List UInt8)
    (e : GoError) (hpre : dataOnly pre) (md5s : List String) (fuel : Nat)
    (hf : scriptFuel (pre ++ ⟨d, some e⟩ :: post) ≤ fuel) :
    calculateMD5sLoop scriptReader (s : Int) fuel (pre ++ ⟨d, some e⟩ :: post) [] md5s =
      if ((content pre).length + d.length) % s = 0 ∧ d ≠ [] then
        calculateMD5sLoop scriptReader (s : Int)
          (fuel - ((content pre).length + d.length) / s) post []
          (md5s ++ (chunkList s (content pre ++ d)).map md5hex)
      else some ⟨md5s ++ (chunkList s (content pre ++ d)).map md5hex, errOf e, post⟩ := by
  have h1 := content_length_le_weight pre
  simp only [scriptFuel, weight_append, weight_cons] at hf
  exact calculateMD5sLoop_script s hs e post _ pre _ d md5s fuel hpre (Or.inl rfl) (le_refl _)
    (by omega)

theorem errOf_EOF : errOf GoError.EOF = none := by
  simp [errOf]

/-- On a script whose answers carry no error other than `io.EOF`, the loop
returns, with a nil error. -/
theorem calculateMD5sLoop_eof_only (s : Nat) (hs : 1 ≤ s) :
    ∀ (n : Nat) (sc : Script), sc.length ≤ n →
      (∀ seg ∈ sc, seg.err = none ∨ seg.err = some GoError.EOF) →
      ∀ (md5s : List String) (fuel : Nat), scriptFuel sc ≤ fuel →
        ∃ out st, calculateMD5sLoop scriptReader (s : Int) fuel sc [] md5s =
          some ⟨out, none, st⟩ := by
  intro n
  induction n with
  | zero =>
    intro sc hlen _ md5s fuel hf
    have hsc : sc = [] := List.eq_nil_of_length_eq_zero (by omega)
    subst hsc
    have key := calculateMD5sLoop_script s hs GoError.EOF [] 0 [] [] [] md5s fuel dataOnly_nil
      (Or.inr ⟨rfl, rfl, rfl, rfl⟩) (le_refl _) (by simp [scriptFuel] at hf ⊢; omega)
    rw [List.append_nil] at key
    rw [key, if_neg (by simp), errOf_EOF]
    exact ⟨_, _, rfl⟩
  | succ n ih =>
    intro sc hlen heof md5s fuel hf
    rcases Script.split_first sc with hdata | ⟨pre, d, e, post, hsc, hpre⟩
    · have h1 := content_length_le_weight sc
      have key := calculateMD5sLoop_script s hs GoError.EOF [] _ sc [] [] md5s fuel hdata
        (Or.inr ⟨rfl, rfl, rfl, rfl⟩) (le_refl _) (by simp [scriptFuel] at hf ⊢; omega)
      rw [List.append_nil] at key
      rw [key, if_neg (by simp), errOf_EOF]
      exact ⟨_, _, rfl⟩
    · subst hsc
      have he : e = GoError.EOF := by
        rcases heof ⟨d, some e⟩ (by simp) with h | h
        · simp at h
        · simpa using h
      subst he
      rw [calculateMD5s_first_error s hs pre post d GoError.EOF hpre md5s fuel hf]
      split_ifs with hcomp
      · have h1 := content_length_le_weight pre
        have hdiv : ((content pre).length + d.length) / s ≤ (content pre).length + d.length :=
          Nat.div_le_self _ _
        apply ih post
        · simp only [List.length_append, List.length_cons] at hlen
          omega
        · intro seg hseg
          exact heof seg (by simp [hseg])
        · simp only [scriptFuel, weight_append, weight_cons] at hf ⊢
          omega
      · rw [errOf_EOF]
        exact ⟨_, _, rfl⟩

/-- C9 as stated fails: with chunk size 2, a read that returns the two bytes of
the chunk together with the error `boom` makes `calculateMD5s` return a nil
error; and when the reader repeats the error, `calculateMD5s` returns it only
after a further read. -/
theorem calculateMD5s_error_at_chunk_end_dropped :
    (scriptReader.Read errorAtChunkEnd 2).data = [1, 2] ∧
      (scriptReader.Read errorAtChunkEnd 2).err = some (GoError.other "boom") ∧
      calculateMD5s 50 scriptReader errorAtChunkEnd 2 =
        some ⟨["0cb988d042a7f28dd5fe2b55b3f5ac7a"], none, []⟩ ∧
      calculateMD5s 50 scriptReader stickyError 2 =
        some ⟨["0cb988d042a7f28dd5fe2b55b3f5ac7a"], some (GoError.other "boom"),
          [⟨[9], none⟩]⟩ := by
  decide

/-- C9, amended: for a chunk size `s >= 1` and a reader whose first answer
carrying an error `e` comes after the answers `pre` and delivers `d`: unless
that answer delivers the last bytes of a chunk, `calculateMD5s` returns right
after it, with error `e` (nil for `io.EOF`) and without reading `post`; when it
does deliver the last bytes of a chunk, the error is not returned and the loop
goes on with `post`; and on a reader that only ever reports `io.EOF`,
`calculateMD5s` returns a nil error. -/
theorem calculateMD5s_read_error (s : Nat) (hs : 1 ≤ s) (pre post : Script) (d : List UInt8)
    (e : GoError) (hpre : dataOnly pre) (fuel : Nat)
    (hf : scriptFuel (pre ++ ⟨d, some e⟩ :: post) ≤ fuel) :
    (¬ (((content pre).length + d.length) % s = 0 ∧ d ≠ []) →
      calculateMD5s fuel scriptReader (pre ++ ⟨d, some e⟩ :: post) (s : Int) =
        some ⟨(chunkList s (content pre ++ d)).map md5hex,
          if e = GoError.EOF then none else some e, post⟩) ∧
    ((((content pre).length + d.length) % s = 0 ∧ d ≠ []) →
      calculateMD5s fuel scriptReader (pre ++ ⟨d, some e⟩ :: post) (s : Int) =
        calculateMD5sLoop scriptReader (s : Int)
          (fuel - ((content pre).length + d.length) / s) post []
          ((chunkList s (content pre ++ d)).map md5hex)) ∧
    (∀ (sc : Script) (fuel1 : Nat),
      (∀ seg ∈ sc, seg.err = none ∨ seg.err = some GoError.EOF) → scriptFuel sc ≤ fuel1 →
      ∃ md5s st, calculateMD5s fuel1 scriptReader sc (s : Int) = some ⟨md5s, none, st⟩) := by
  have key := calculateMD5s_first_error s hs pre post d e hpre [] fuel hf
  rw [List.nil_append] at key
  refine ⟨?_, ?_, ?_⟩
  · intro hnc
    rw [calculateMD5s, key, if_neg hnc]
    rfl
  · intro hc
    rw [calculateMD5s, key, if_pos hc]
  · intro sc fuel1 heof hfuel
    exact calculateMD5sLoop_eof_only s hs sc.length sc (le_refl _) heof [] fuel1 hfuel

/-- C9, amended, with chunk size 2 on a reader that delivers two bytes and then
one byte together with a read error: two hashes, the error, and the rest of
the reader untouched. -/
theorem calculateMD5s_read_error_witness :
    (1 ≤ 2 ∧ dataOnly [⟨[1, 2], none⟩] ∧ scriptFuel errorMidChunk ≤ 50 ∧
        ¬ (((content [⟨[1, 2], none⟩]).length + [(3 : UInt8)].length) % 2 = 0 ∧
          [(3 : UInt8)] ≠ [])) ∧
      calculateMD5s 50 scriptReader errorMidChunk 2 =
        some ⟨["0cb988d042a7f28dd5fe2b55b3f5ac7a", "8666683506aacd900bbd5a74ac4edf68"],
          some (GoError.other "read error"), [⟨[9], none⟩]⟩ :=
  ⟨⟨by decide, by unfold dataOnly; decide, by decide, by decide⟩,
    ((calculateMD5s_read_error 2 (by decide) [⟨[1, 2], none⟩] [⟨[9], none⟩] [3]
      (GoError.other "read error") (by unfold dataOnly; decide) 50 (by decide)).1
      (by decide)).trans (by decide)⟩

/-! ## determinism, keys, format of the hashes, non-positive chunk sizes -/

/-- C11: for a chunk size `s >= 1`, two readers that deliver the same bytes and
then end cleanly make `calculateMD5s` return the same result, however each of
them splits the bytes into reads: the list is the hex MD5 digests of the
ranges `b[i*s .. (i+1)*s)` of the common content `b`, so every chunk starts at
a multiple of `s`. -/
theorem calculateMD5s_independent_of_read_sizes (s : Nat) (hs : 1 ≤ s) (sc1 sc2 : Script)
    (h1 : Clean sc1 = true) (h2 : Clean sc2 = true) (hsame : content sc1 = content sc2)
    (fuel1 fuel2 : Nat) (hf1 : scriptFuel sc1 ≤ fuel1) (hf2 : scriptFuel sc2 ≤ fuel2) :
    calculateMD5s fuel1 scriptReader sc1 (s : Int) =
        calculateMD5s fuel2 scriptReader sc2 (s : Int) ∧
      calculateMD5s fuel1 scriptReader sc1 (s : Int) =
        some ⟨(List.range (((content sc1).length + s - 1) / s)).map
          (fun i => md5hex (((content sc1).drop (i * s)).take s)), none, []⟩ := by
  have e1 := calculateMD5s_clean s hs sc1 h1 fuel1 hf1
  have e2 := calculateMD5s_clean s hs sc2 h2 fuel2 hf2
  refine ⟨by rw [e1, e2, hsame], ?_⟩
  rw [e1]
  simp only [chunkList, List.map_map]
  rfl

/-- C11 on the 25 bytes of `sample25` with chunk size 10, read as 7 + 0 + 18
bytes and as 12 + 1 + 12 bytes: the same three hashes. -/
theorem calculateMD5s_independent_of_read_sizes_witness :
    (1 ≤ 10 ∧ Clean stream25 = true ∧ Clean stream25b = true ∧
        content stream25 = content stream25b ∧ stream25 ≠ stream25b) ∧
      calculateMD5s 100 scriptReader stream25 (10 : Int) =
        calculateMD5s 100 scriptReader stream25b (10 : Int) ∧
      calculateMD5s 100 scriptReader stream25b (10 : Int) = some hashed25 :=
  ⟨⟨by decide, by decide, by decide, by decide, by decide⟩,
    (calculateMD5s_independent_of_read_sizes 10 (by decide) stream25 stream25b (by decide)
      (by decide) (by decide) 100 100 (by decide) (by decide)).1,
    by decide⟩

/-- C12: the key and the omit-when-empty mark that each `plist` struct tag of
the source gives are those of the mapping table of the specification. -/
theorem plist_tags_match_mapping_table (f : Field) :
    (tagKey (plistTag f), tagOmitEmpty (plistTag f)) = specKey f := by
  cases f <;> decide

theorem md5_Sum_length (msg : List UInt8) : (md5.Sum msg).length = 16 := by
  simp [md5.Sum, md5.wordBytes]

theorem Sprintf_x_length (bs : List UInt8) : (Sprintf_x bs).length = 2 * bs.length := by
  unfold Sprintf_x
  show (bs.flatMap _).length = 2 * bs.length
  induction bs with
  | nil => rfl
  | cons b t ih =>
    rw [List.flatMap_cons, List.length_append, ih, List.length_cons]
    simp only [List.length_cons, List.length_nil]
    omega

theorem hexDigit_mem (n : Nat) (hn : n < 16) : hexDigit n ∈ lowerHexDigits := by
  interval_cases n <;> decide

theorem Sprintf_x_digits (bs : List UInt8) : ∀ c ∈ (Sprintf_x bs).data, c ∈ lowerHexDigits := by
  intro c hc
  unfold Sprintf_x at hc
  simp only [List.mem_flatMap, List.mem_cons, List.mem_singleton, List.not_mem_nil,
    or_false] at hc
  obtain ⟨b, _, hb⟩ := hc
  have hlt : b.toNat < 256 := b.val.isLt
  rcases hb with rfl | rfl
  · exact hexDigit_mem _ (by omega)
  · exact hexDigit_mem _ (by omega)

/-- The elements of the list the hashing loop returns keep any property that
the elements it started with have and that every `%x` rendering of an MD5
digest has. -/
theorem calculateMD5sLoop_elements {σ : Type} (r : Reader σ) (s : Int) (P : String → Prop)
    (hP : ∀ chunk, P (Sprintf_x (md5.Sum chunk))) :
    ∀ (fuel : Nat) (st : σ) (h : List UInt8) (md5s : List String) (res : Hashed σ),
      (∀ x ∈ md5s, P x) → calculateMD5sLoop r s fuel st h md5s = some res →
      ∀ x ∈ res.md5s, P x := by
  intro fuel
  induction fuel with
  | zero =>
    intro st h md5s res _ hrun
    simp [calculateMD5sLoop] at hrun
  | succ f ih =>
    intro st h md5s res hall hrun
    rw [calculateMD5sLoop] at hrun
    cases hc : CopyN f r st h s with
    | none => rw [hc] at hrun; simp at hrun
    | some c =>
      rw [hc] at hrun
      simp only at hrun
      have hall1 : ∀ x ∈ (if c.written > 0 then md5s ++ [Sprintf_x (md5.Sum c.h)] else md5s),
          P x := by
        intro x hx
        split_ifs at hx
        · rcases List.mem_append.mp hx with hx | hx
          · exact hall x hx
          · rw [List.mem_singleton.mp hx]
            exact hP _
        · exact hall x hx
      cases herr : c.err with
      | some er =>
        rw [herr] at hrun
        simp only [Option.some.injEq] at hrun
        rw [← hrun]
        exact hall1
      | none =>
        rw [herr] at hrun
        exact ih _ _ _ res hall1 hrun

/-- C13: every string in the list `calculateMD5s` returns, for any reader and
any chunk size, has exactly 32 characters, all of them lowercase hexadecimal
digits, and is the `%x` rendering of the 16-byte MD5 digest of some chunk. -/
theorem calculateMD5s_hash_strings_format {σ : Type} (fuel : Nat) (r : Reader σ) (st : σ)
    (s : Int) (res : Hashed σ) (hrun : calculateMD5s fuel r st s = some res) :
    ∀ x ∈ res.md5s, x.length = 32 ∧ (∀ c ∈ x.data, c ∈ lowerHexDigits) ∧
      ∃ chunk, x = Sprintf_x (md5.Sum chunk) ∧ (md5.Sum chunk).length = 16 := by
  refine calculateMD5sLoop_elements r s _ ?_ fuel st [] [] res ?_ hrun
  · intro chunk
    refine ⟨?_, Sprintf_x_digits _, chunk, rfl, md5_Sum_length chunk⟩
    rw [Sprintf_x_length, md5_Sum_length]
  · intro x hx
    cases hx

/-- C13 on the 25 bytes of `sample25` with chunk size 10: three strings of 32
lowercase hexadecimal digits, the last one over a chunk of 5 bytes. -/
theorem calculateMD5s_hash_strings_format_witness :
    calculateMD5s 100 scriptReader stream25 (10 : Int) = some hashed25 ∧
      hashed25.md5s.map String.length = [32, 32, 32] ∧
      ∀ x ∈ hashed25.md5s, x.length = 32 ∧ (∀ c ∈ x.data, c ∈ lowerHexDigits) ∧
        ∃ chunk, x = Sprintf_x (md5.Sum chunk) ∧ (md5.Sum chunk).length = 16 :=
  ⟨by decide, by decide,
    calculateMD5s_hash_strings_format 100 scriptReader stream25 10 hashed25 (by decide)⟩

/-- C14: for a chunk size `s <= 0` and any reader, every `io.CopyN(h, f, s)`
copies 0 bytes, reports a nil error and leaves the reader and the hash as they
were; an iteration of the loop of `calculateMD5s` appends nothing and leads to
the same state; and `calculateMD5s` has not returned, whatever the fuel.  On a
file of size 0 the chunk size is clamped to at most 0, so `createAppManifest`
never reaches the encoder. -/
theorem calculateMD5s_nonpositive_chunk_loops_forever {σ : Type} (r : Reader σ) (st : σ)
    (s : Int) (hs : s ≤ 0) :
    (∀ (f : Nat) (h : List UInt8), CopyN (f + 1) r st h s = some ⟨0, none, st, h⟩) ∧
      (∀ (f : Nat) (h : List UInt8) (md5s : List String),
        calculateMD5sLoop r s (f + 2) st h md5s = calculateMD5sLoop r s (f + 1) st h md5s) ∧
      (∀ (fuel : Nat) (h : List UInt8) (md5s : List String),
        calculateMD5sLoop r s fuel st h md5s = none) ∧
      (∀ fuel : Nat, calculateMD5s fuel r st s = none) ∧
      (∀ (fuel : Nat) (fs : FS σ) (enc : Encoder) (path url : String) (writer : List UInt8)
        (C : Int) (file : File σ), fs.Open path = .ok file → file.Stat = .ok 0 →
        assembleManifest fuel fs path url C = none ∧
          createAppManifest fuel fs enc path url writer C = none) := by
  refine ⟨fun f h => CopyN_nonpos r f st h s hs, ?_, fun fuel h md5s =>
    calculateMD5sLoop_nonpos r s hs fuel st h md5s, fun fuel =>
    calculateMD5sLoop_nonpos r s hs fuel st [] [], ?_⟩
  · intro f h md5s
    rw [calculateMD5sLoop, CopyN_nonpos r f st h s hs]
    simp only [gt_iff_lt, lt_self_iff_false, if_false]
  · intro fuel fs enc path url writer C file hopen hstat
    have hmin : min C 0 ≤ 0 := min_le_right _ _
    have hasm : assembleManifest fuel fs path url C = none := by
      simp only [assembleManifest, hopen, hstat, clamp_eq_min, calculateMD5s,
        calculateMD5sLoop_nonpos file.r (min C 0) hmin]
    exact ⟨hasm, by rw [createAppManifest, hasm]⟩

/-- C14 with chunk size -5 on the reader `stream25`, and on a 0-byte file with
the default chunk size. -/
theorem calculateMD5s_nonpositive_chunk_loops_forever_witness :
    (-5 : Int) ≤ 0 ∧
      CopyN 1 scriptReader stream25 [] (-5) = some ⟨0, none, stream25, []⟩ ∧
      (∀ fuel : Nat, calculateMD5s fuel scriptReader stream25 (-5) = none) ∧
      (∀ fuel : Nat, createAppManifest fuel (singleFile "empty.pkg" (regularFile []))
        countingEncoder "empty.pkg" "" [] DefaultMD5Size = none) :=
  ⟨by decide,
    (calculateMD5s_nonpositive_chunk_loops_forever scriptReader stream25 (-5) (by decide)).1 0 [],
    (calculateMD5s_nonpositive_chunk_loops_forever scriptReader stream25 (-5) (by decide)).2.2.2.1,
    fun fuel =>
      ((calculateMD5s_nonpositive_chunk_loops_forever scriptReader stream25 (-5)
        (by decide)).2.2.2.2 fuel (singleFile "empty.pkg" (regularFile [])) countingEncoder
        "empty.pkg" "" [] DefaultMD5Size (regularFile []) (by simp [singleFile]) rfl).2⟩

end AppManifest
